import Mathlib

/-!
Verification of the issue-states core (state model, merge-join iterator,
topological closure builder, resolution engine, condition grammar) against a
shallow embedding of the Rust sources in src/.

Conventions of the embedding:
* Rust iterators over `BTreeSet` / `BTreeMap` become Lean lists of entries in
  ascending key order; the ordering invariants appear as `List.Pairwise`
  hypotheses where a proof needs them.
* `Arc<IssueState<C>>` handles become plain `IssueState C` values.  The Rust
  `PartialEq`/`Ord` impls compare states by name only, so all keyed containers
  are modelled with the name-based comparison `IssueState.cmp`.
* Fallible Rust functions returning `Result<T>` become `Except ErrorKind T`.
-/

set_option maxHeartbeats 1000000

/-- Model of `StateRelation` (src/state.rs): classification of the relation
between two states. -/
inductive StateRelation : Type where
  | Extends : StateRelation
  | Overrides : StateRelation
deriving DecidableEq

/-- Model of `MatchOp` (src/condition.rs): the match operators of the condition
grammar. -/
inductive MatchOp : Type where
  | Equivalence : MatchOp
  | LowerThan : MatchOp
  | GreaterThan : MatchOp
  | LowerThanOrEqual : MatchOp
  | GreaterThanOrEqual : MatchOp
  | Contains : MatchOp
deriving DecidableEq

/-- Model of `ErrorKind` (src/error.rs).  The enum in src/error.rs declares only
`CyclicDependency` and `DependencyError`; src/condition.rs additionally
constructs `ErrorKind::ConditionParseError`, so that variant is included here
as the code uses it. -/
inductive ErrorKind : Type where
  | CyclicDependency : ErrorKind
  | DependencyError : ErrorKind
  | ConditionParseError : ErrorKind
deriving DecidableEq

/-- Model of `IssueState<C>` (src/state.rs): a name (a string, modelled as its
character list), the list of conditions and the `BTreeMap` of relations to
other states, kept as its list of entries in ascending (by target name)
order. -/
inductive IssueState (C : Type) : Type where
  | mk : List Char → List C → List (IssueState C × StateRelation) → IssueState C

/-- Accessor for the `name` field of `IssueState` (src/state.rs). -/
def IssueState.name {C : Type} : IssueState C → List Char
  | .mk n _ _ => n

/-- Accessor for the `conditions` field of `IssueState` (src/state.rs). -/
def IssueState.conditions {C : Type} : IssueState C → List C
  | .mk _ c _ => c

/-- Accessor for the `relations` field of `IssueState` (src/state.rs). -/
def IssueState.relations {C : Type} : IssueState C → List (IssueState C × StateRelation)
  | .mk _ _ r => r

/-- Three-way comparison obtained from a key projection into a linear order;
this models Rust's derived `Ord::cmp` through a projection. -/
def cmpBy {K α : Type} [LinearOrder α] (f : K → α) (a b : K) : Ordering :=
  if f a < f b then Ordering.lt else if f a = f b then Ordering.eq else Ordering.gt

/-- Model of `impl Ord for IssueState` (src/state.rs): states are compared by
`self.name.cmp(&other.name)` alone. -/
def IssueState.cmp {C : Type} (a b : IssueState C) : Ordering :=
  cmpBy IssueState.name a b

/-- Model of `impl PartialEq for IssueState` (src/state.rs): equality is
`self.name == other.name`. -/
def IssueState.beq {C : Type} (a b : IssueState C) : Bool :=
  a.name == b.name

/- ### Merge-join iterator (src/iter.rs) -/

/-- Model of `LeftJoin::next_right` (src/iter.rs): starting from the buffered
right element `buf` and the unconsumed right iterator `right`, discard right
elements whose key is below `key`, consume an element with an equal key
(returning its value), and buffer an element with a greater key.  The result
packs the optional matched value together with the new buffer and the remaining
right elements. -/
def nextRight {K V : Type} (c : K → K → Ordering) (key : K)
    (buf : Option (K × V)) (right : List (K × V)) :
    Option V × (Option (K × V) × List (K × V)) :=
  match buf, right with
  | some b, right =>
    match c b.1 key with
    | Ordering.lt =>
      match right with
      | [] => (none, (none, []))
      | r :: rs => nextRight c key (some r) rs
    | Ordering.eq => (some b.2, (none, right))
    | Ordering.gt => (none, (some b, right))
  | none, [] => (none, (none, []))
  | none, r :: rs => nextRight c key (some r) rs

/-- Model of `impl Iterator for LeftJoin` (src/iter.rs), fused over the whole
left sequence: for each left element, fetch the matching right value through
`nextRight`, threading the buffer state. -/
def leftJoinAux {K U V : Type} (c : K → K → Ordering) :
    List (K × U) → Option (K × V) → List (K × V) → List (U × Option V)
  | [], _, _ => []
  | l :: ls, buf, right =>
    match nextRight c l.1 buf right with
    | (v, (buf2, right2)) => (l.2, v) :: leftJoinAux c ls buf2 right2

/-- Model of `LeftJoin::new` plus full consumption of the iterator
(src/iter.rs): the sequence of `(leftValue, Option rightValue)` pairs. -/
def joinLeft {K U V : Type} (c : K → K → Ordering)
    (left : List (K × U)) (right : List (K × V)) : List (U × Option V) :=
  leftJoinAux c left none right

/-- Lookup of the value stored under key `k` in an entry list, comparing keys
through the projection `f`; this is the reference semantics a merge-join match
is proved equal to. -/
def lookupBy {K V α : Type} [LinearOrder α] (f : K → α) (k : α)
    (l : List (K × V)) : Option V :=
  (l.find? fun p => decide (f p.1 = k)).map Prod.snd

/- ### Topological closure builder (src/resolution.rs, IssueStateSet::from_set) -/

/-- Model of the per-state membership test inside `IssueStateSet::from_set`
(src/resolution.rs lines 144-149): a state can be moved to the output when the
merge-join of its relations against the still-unresolved set finds no match. -/
def readyState {C : Type} (s : IssueState C) (states : List (IssueState C)) : Bool :=
  !(joinLeft IssueState.cmp s.relations (states.map fun t => (t, ()))).any
    (fun item => item.2.isSome)

/-- Model of one batch of `IssueStateSet::from_set` (src/resolution.rs): all
states of the unresolved set with no dependency left in it, in set order. -/
def readyBatch {C : Type} (states : List (IssueState C)) : List (IssueState C) :=
  states.filter fun s => readyState s states

/-- Model of the batch removal in `IssueStateSet::from_set` (src/resolution.rs
lines 152-155): `BTreeSet::remove` erases the element comparing equal, i.e.
the element with the same name. -/
def removeBatch {C : Type} (batch states : List (IssueState C)) :
    List (IssueState C) :=
  states.filter fun s => !(batch.any fun b => IssueState.beq b s)

theorem beq_self {C : Type} (s : IssueState C) : IssueState.beq s s = true := by
  simp [IssueState.beq]

theorem length_filter_lt_of_exists {α : Type} (p : α → Bool) (l : List α)
    (h : ∃ x ∈ l, p x = false) : (l.filter p).length < l.length := by
  induction l with
  | nil => rcases h with ⟨x, hx, _⟩; cases hx
  | cons a l ih =>
    rcases h with ⟨x, hx, hpx⟩
    rcases List.mem_cons.mp hx with rfl | hx
    · rw [List.filter_cons, hpx]
      exact Nat.lt_succ_of_le (List.length_filter_le p l)
    · rw [List.filter_cons]
      cases hpa : p a with
      | true =>
        simpa using Nat.succ_lt_succ (ih ⟨x, hx, hpx⟩)
      | false =>
        simpa using Nat.lt_succ_of_lt (ih ⟨x, hx, hpx⟩)

theorem removeBatch_length_lt {C : Type} (states : List (IssueState C))
    (hb : ¬(readyBatch states).isEmpty = true) :
    (removeBatch (readyBatch states) states).length < states.length := by
  apply length_filter_lt_of_exists
  rcases List.exists_mem_of_ne_nil _ (by simpa [List.isEmpty_iff] using hb) with ⟨b, hbmem⟩
  refine ⟨b, List.mem_of_mem_filter hbmem, ?_⟩
  have : (readyBatch states).any (fun x => IssueState.beq x b) = true :=
    List.any_eq_true.mpr ⟨b, hbmem, beq_self b⟩
  simp [this]

/-- Model of `IssueStateSet::from_set` (src/resolution.rs lines 133-166):
repeatedly move every state with no dependency left in the unresolved set to
the output; fail with `CyclicDependency` if a full scan moves nothing while
states remain. -/
def from_set {C : Type} (states : List (IssueState C)) :
    Except ErrorKind (List (IssueState C)) :=
  if states.isEmpty then Except.ok []
  else if hb : (readyBatch states).isEmpty then Except.error ErrorKind.CyclicDependency
  else
    match from_set (removeBatch (readyBatch states) states) with
    | Except.ok rest => Except.ok (readyBatch states ++ rest)
    | Except.error e => Except.error e
termination_by states.length
decreasing_by exact removeBatch_length_lt states hb

/- ### Resolution engine (src/resolution.rs) -/

/-- Model of `IssueState::conditions_satisfied` (src/state.rs): all own
conditions of the state hold for the issue, vacuously true when there are
none.  `sat` stands for the caller-supplied `Condition::satisfied_by`. -/
def conditions_satisfied {C I : Type} (sat : C → I → Bool)
    (s : IssueState C) (issue : I) : Bool :=
  s.conditions.all fun c => sat c issue

/-- Model of the fold operation inside `deps_enabled` (src/resolution.rs lines
67-71): conjunction over optional booleans, collapsing to `none` as soon as
one operand is `none`. -/
def optAnd (st val : Option Bool) : Option Bool :=
  match st, val with
  | some s, some v => some (s && v)
  | _, _ => none

/-- Model of `deps_enabled` (src/resolution.rs lines 56-74): join the state's
relations against the enabled map, keep the joined values of `Extends`
relations only, fold them conjunctively, and turn a `none` (an `Extends`
target missing from the map) into `DependencyError`. -/
def deps_enabled {C : Type} (s : IssueState C)
    (map : List (IssueState C × Bool)) : Except ErrorKind Bool :=
  match ((joinLeft IssueState.cmp s.relations map).filterMap fun item =>
      match item.1 with
      | StateRelation.Extends => some item.2
      | StateRelation.Overrides => none).foldl optAnd (some true) with
  | some b => Except.ok b
  | none => Except.error ErrorKind.DependencyError

/-- Model of `BTreeMap::insert` on the enabled map (src/resolution.rs line
184): insert the entry at its ordered position, replacing an entry with an
equal (same-name) key. -/
def mapInsert {C : Type} (key : IssueState C) (v : Bool) :
    List (IssueState C × Bool) → List (IssueState C × Bool)
  | [] => [(key, v)]
  | (k, w) :: rest =>
    match IssueState.cmp key k with
    | Ordering.lt => (key, v) :: (k, w) :: rest
    | Ordering.eq => (key, v) :: rest
    | Ordering.gt => (k, w) :: mapInsert key v rest

/-- Model of the scan loop of `IssueStateSet::issue_state` (src/resolution.rs
lines 173-191): for each state, compute `conditions_satisfied && deps_enabled`
(the second operand short-circuited, and its error propagated), record the
result in the enabled map, and keep the last enabled state as return value. -/
def issueStateLoop {C I : Type} (sat : C → I → Bool) (issue : I) :
    List (IssueState C) → Option (IssueState C) → List (IssueState C × Bool) →
    Except ErrorKind (Option (IssueState C))
  | [], retval, _ => Except.ok retval
  | state :: rest, retval, map =>
    match (if conditions_satisfied sat state issue
           then deps_enabled state map else Except.ok false) with
    | Except.error e => Except.error e
    | Except.ok enabled =>
      issueStateLoop sat issue rest (if enabled then some state else retval)
        (mapInsert state enabled map)

/-- Model of `IssueStateSet::issue_state` (src/resolution.rs lines 173-192):
run the scan loop over the dependency-ordered data with no winner and an empty
enabled map. -/
def issue_state {C I : Type} (sat : C → I → Bool)
    (data : List (IssueState C)) (issue : I) :
    Except ErrorKind (Option (IssueState C)) :=
  issueStateLoop sat issue data none []

/- ### Condition grammar parser (src/condition.rs) -/

/-- Model of `reserved_char` (src/condition.rs): membership in the reserved
character set. -/
def reserved_char (c : Char) : Bool :=
  (['!', '=', '<', '>', '~'] : List Char).contains c

/-- Index of the first character satisfying `p`, modelling `str::find`
(src/condition.rs line 156). -/
def findIdxAux (p : Char → Bool) : List Char → Option Nat
  | [] => none
  | c :: rest => if p c then some 0 else (findIdxAux p rest).map (· + 1)

/-- Model of `parse_op_val` (src/condition.rs lines 191-209): read the match
operator from the front of the string and return it with the remaining text as
the unparsed value. -/
def parse_op_val (s : List Char) : Except ErrorKind (MatchOp × List Char) :=
  match s with
  | [] => Except.error ErrorKind.ConditionParseError
  | c :: rest =>
    if c = '=' then Except.ok (MatchOp.Equivalence, rest)
    else if c = '<' then
      if rest.head? = some '=' then Except.ok (MatchOp.LowerThanOrEqual, rest.drop 1)
      else Except.ok (MatchOp.LowerThan, rest)
    else if c = '>' then
      if rest.head? = some '=' then Except.ok (MatchOp.GreaterThanOrEqual, rest.drop 1)
      else Except.ok (MatchOp.GreaterThan, rest)
    else if c = '~' then Except.ok (MatchOp.Contains, rest)
    else Except.error ErrorKind.ConditionParseError

/-- Model of `parse_condition` (src/condition.rs lines 155-179): split the
string at its first reserved character into name and operator-value part,
handle the negated-existence form, and parse the operator. -/
def parse_condition (s : List Char) :
    Except ErrorKind (List Char × Bool × Option (MatchOp × List Char)) :=
  match findIdxAux reserved_char s with
  | some pos =>
    if pos = 0 then
      match s with
      | c :: name =>
        if c = '!' && !(name.any reserved_char) then Except.ok (name, true, none)
        else Except.error ErrorKind.ConditionParseError
      | [] => Except.error ErrorKind.ConditionParseError
    else
      (parse_op_val (if (s.drop pos).head? = some '!'
                     then (s.drop pos).drop 1 else s.drop pos)).map
        fun ov => (s.take pos, decide ((s.drop pos).head? = some '!'), some ov)
  | none => Except.ok (s, false, none)

/- ### Specification-side definitions -/

/-- Lookup in the specification-side association list of per-name enablement
flags (newest entry first). -/
def assocLookup (n : List Char) : List (List Char × Bool) → Option Bool
  | [] => none
  | (m, b) :: rest => if m = n then some b else assocLookup n rest

/-- Second definition for the resolution step, following the words of the
spec (section 4.4): a state is enabled iff the AND of its own conditions holds
and every `Extends`-related target is recorded as enabled in the map built so
far; `Overrides` relations do not gate. -/
def specStep {C I : Type} (sat : C → I → Bool) (issue : I)
    (acc : List (List Char × Bool)) (s : IssueState C) : Bool :=
  conditions_satisfied sat s issue &&
    s.relations.all fun p =>
      match p.2 with
      | StateRelation.Extends => (assocLookup p.1.name acc).getD false
      | StateRelation.Overrides => true

/-- Second definition for the resolution scan, following the words of the
spec (section 4.4): scan the catalog in order, record each state's enablement
under its name, and overwrite the running winner with every enabled state. -/
def specScan {C I : Type} (sat : C → I → Bool) (issue : I) :
    List (IssueState C) → List (List Char × Bool) → Option (IssueState C) →
    Option (IssueState C)
  | [], _, win => win
  | s :: rest, acc, win =>
    specScan sat issue rest ((s.name, specStep sat issue acc s) :: acc)
      (if specStep sat issue acc s then some s else win)

/-- Second definition for the whole resolution, following the words of the
spec (section 4.4): the last enabled state in scan order, or `none`. -/
def resolveSpec {C I : Type} (sat : C → I → Bool)
    (data : List (IssueState C)) (issue : I) : Option (IssueState C) :=
  specScan sat issue data [] none

/-- Model of `BTreeMap::get` on a map keyed by states (src/resolution.rs uses
such maps through `Ord`): the value stored under a key comparing equal. -/
def stateLookup {C : Type} (key : IssueState C) :
    List (IssueState C × Bool) → Option Bool
  | [] => none
  | (k, w) :: rest =>
    match IssueState.cmp key k with
    | Ordering.eq => some w
    | _ => stateLookup key rest

/-- Dependency-order invariant of a catalog (spec section 3): every relation
target of every state appears strictly earlier in the sequence, identified by
name. -/
def DepOrdered {C : Type} (out : List (IssueState C)) : Prop :=
  ∀ i : Fin out.length, ∀ p ∈ (out.get i).relations,
    ∃ j : Fin out.length, j.val < i.val ∧ (out.get j).name = p.1.name

/-- Concrete condition type for witnesses: a metadata name, satisfied by an
issue (a list of set flags) iff the name is present, mirroring the test
condition of src/test.rs. -/
def testSat (c : List Char) (issue : List (List Char)) : Bool :=
  issue.contains c

/- ### Lemmas about `cmpBy` -/

theorem cmpBy_eq_lt {K α : Type} [LinearOrder α] (f : K → α) (a b : K) :
    cmpBy f a b = Ordering.lt ↔ f a < f b := by
  unfold cmpBy
  split
  · simp_all
  · split <;> simp_all

theorem cmpBy_eq_eq {K α : Type} [LinearOrder α] (f : K → α) (a b : K) :
    cmpBy f a b = Ordering.eq ↔ f a = f b := by
  unfold cmpBy
  split
  · constructor
    · intro h; cases h
    · intro h; simp_all [lt_irrefl]
  · split <;> simp_all

theorem cmpBy_eq_gt {K α : Type} [LinearOrder α] (f : K → α) (a b : K) :
    cmpBy f a b = Ordering.gt ↔ f b < f a := by
  unfold cmpBy
  split
  · constructor
    · intro h; cases h
    · intro h; exact absurd h (lt_asymm (by assumption))
  · split
    · constructor
      · intro h; cases h
      · intro h; simp_all [lt_irrefl]
    · constructor
      · intro _
        rcases lt_trichotomy (f a) (f b) with h | h | h
        · simp_all
        · simp_all
        · exact h
      · intro _; rfl

/- ### Lemmas about `lookupBy` -/

theorem lookupBy_nil {K V α : Type} [LinearOrder α] (f : K → α) (k : α) :
    lookupBy (V := V) f k [] = none := rfl

theorem lookupBy_cons {K V α : Type} [LinearOrder α] (f : K → α) (k : α)
    (p : K × V) (l : List (K × V)) :
    lookupBy f k (p :: l) = if f p.1 = k then some p.2 else lookupBy f k l := by
  by_cases h : f p.1 = k <;> simp [lookupBy, List.find?_cons, h]

theorem lookupBy_eq_none {K V α : Type} [LinearOrder α] (f : K → α) (k : α)
    (l : List (K × V)) (h : ∀ x ∈ l, f x.1 ≠ k) : lookupBy f k l = none := by
  have : l.find? (fun p => decide (f p.1 = k)) = none :=
    List.find?_eq_none.mpr (by intro x hx; simpa using h x hx)
  simp [lookupBy, this]

/- ### Correctness of the merge-join (src/iter.rs) -/

theorem nextRight_spec {K V α : Type} [LinearOrder α] (f : K → α) (key : K) :
    ∀ (right : List (K × V)) (buf : Option (K × V)),
      (buf.toList ++ right).Pairwise (fun p q => f p.1 < f q.1) →
      (nextRight (cmpBy f) key buf right).1 = lookupBy f (f key) (buf.toList ++ right) ∧
      (nextRight (cmpBy f) key buf right).2.1.toList ++ (nextRight (cmpBy f) key buf right).2.2
        = (buf.toList ++ right).filter fun p => decide (f key < f p.1) := by
  intro right
  induction right with
  | nil =>
    intro buf hs
    match buf with
    | none => simp [nextRight, lookupBy]
    | some b =>
      cases hc : cmpBy f b.1 key with
      | lt =>
        have hbk : f b.1 < f key := (cmpBy_eq_lt f b.1 key).mp hc
        constructor
        · simp [nextRight, hc, lookupBy_cons, ne_of_lt hbk, lookupBy]
        · simp [nextRight, hc, List.filter_cons, not_lt_of_gt hbk]
      | eq =>
        have hbk : f b.1 = f key := (cmpBy_eq_eq f b.1 key).mp hc
        constructor
        · simp [nextRight, hc, lookupBy_cons, hbk, lookupBy]
        · simp [nextRight, hc, List.filter_cons, hbk, lt_irrefl]
      | gt =>
        have hbk : f key < f b.1 := (cmpBy_eq_gt f b.1 key).mp hc
        constructor
        · simp [nextRight, hc, lookupBy_cons, (ne_of_gt hbk), lookupBy]
        · simp [nextRight, hc, List.filter_cons, hbk]
  | cons r rs ih =>
    intro buf hs
    match buf with
    | none =>
      have := ih (some r) (by simpa using hs)
      simpa [nextRight] using this
    | some b =>
      have hs' : List.Pairwise (fun p q => f p.1 < f q.1) (b :: r :: rs) := hs
      have hrel : ∀ x ∈ r :: rs, f b.1 < f x.1 :=
        fun x hx => (List.pairwise_cons.mp hs').1 x hx
      have htail : ((some r).toList ++ rs).Pairwise (fun p q => f p.1 < f q.1) :=
        (List.pairwise_cons.mp hs').2
      cases hc : cmpBy f b.1 key with
      | lt =>
        have hbk : f b.1 < f key := (cmpBy_eq_lt f b.1 key).mp hc
        have hstep := ih (some r) htail
        constructor
        · rw [show (nextRight (cmpBy f) key (some b) (r :: rs)).1
                = (nextRight (cmpBy f) key (some r) rs).1 by simp [nextRight, hc]]
          rw [hstep.1]
          simp [lookupBy_cons, ne_of_lt hbk]
        · rw [show (nextRight (cmpBy f) key (some b) (r :: rs)).2
                = (nextRight (cmpBy f) key (some r) rs).2 by simp [nextRight, hc]]
          rw [hstep.2]
          simp [List.filter_cons, not_lt_of_gt hbk]
      | eq =>
        have hbk : f b.1 = f key := (cmpBy_eq_eq f b.1 key).mp hc
        constructor
        · simp [nextRight, hc, lookupBy_cons, hbk]
        · have hkeep : (r :: rs).filter (fun p => decide (f key < f p.1)) = r :: rs := by
            apply List.filter_eq_self.mpr
            intro x hx
            simpa using hbk ▸ hrel x hx
          simp [nextRight, hc, List.filter_cons, hbk, lt_irrefl, hkeep]
      | gt =>
        have hbk : f key < f b.1 := (cmpBy_eq_gt f b.1 key).mp hc
        constructor
        · have hnone : lookupBy f (f key) (r :: rs) = none := by
            apply lookupBy_eq_none
            intro x hx
            exact ne_of_gt (lt_trans hbk (hrel x hx))
          simp [nextRight, hc, lookupBy_cons, ne_of_gt hbk, hnone]
        · have hkeep : (r :: rs).filter (fun p => decide (f key < f p.1)) = r :: rs := by
            apply List.filter_eq_self.mpr
            intro x hx
            simpa using lt_trans hbk (hrel x hx)
          simp [nextRight, hc, List.filter_cons, hbk, hkeep]

theorem lookupBy_filter_gt {K V α : Type} [LinearOrder α] (f : K → α)
    (k0 k : α) (hk : k0 < k) (l : List (K × V)) :
    lookupBy f k (l.filter fun p => decide (k0 < f p.1)) = lookupBy f k l := by
  induction l with
  | nil => rfl
  | cons p l ih =>
    rw [List.filter_cons]
    by_cases hp : k0 < f p.1
    · rw [if_pos (by simpa using hp), lookupBy_cons, lookupBy_cons, ih]
    · have hne : f p.1 ≠ k := by
        intro h
        exact hp (h ▸ hk)
      rw [if_neg (by simpa using hp), ih, lookupBy_cons, if_neg hne]

theorem leftJoinAux_spec {K U V α : Type} [LinearOrder α] (f : K → α) :
    ∀ (left : List (K × U)) (buf : Option (K × V)) (right : List (K × V)),
      left.Pairwise (fun p q => f p.1 < f q.1) →
      (buf.toList ++ right).Pairwise (fun p q => f p.1 < f q.1) →
      leftJoinAux (cmpBy f) left buf right
        = left.map fun p => (p.2, lookupBy f (f p.1) (buf.toList ++ right)) := by
  intro left
  induction left with
  | nil => intro buf right _ _; rfl
  | cons l ls ih =>
    intro buf right hl hr
    have hnr := nextRight_spec f l.1 right buf hr
    have hrest : ((nextRight (cmpBy f) l.1 buf right).2.1.toList
        ++ (nextRight (cmpBy f) l.1 buf right).2.2).Pairwise
          (fun p q => f p.1 < f q.1) := by
      rw [hnr.2]
      exact hr.filter _
    have hltail : ls.Pairwise (fun p q => f p.1 < f q.1) :=
      (List.pairwise_cons.mp hl).2
    have hlhead : ∀ q ∈ ls, f l.1 < f q.1 :=
      fun q hq => (List.pairwise_cons.mp hl).1 q hq
    have hstep := ih (nextRight (cmpBy f) l.1 buf right).2.1
      (nextRight (cmpBy f) l.1 buf right).2.2 hltail hrest
    show (l.2, (nextRight (cmpBy f) l.1 buf right).1)
        :: leftJoinAux (cmpBy f) ls (nextRight (cmpBy f) l.1 buf right).2.1
             (nextRight (cmpBy f) l.1 buf right).2.2
      = _
    rw [hnr.1, hstep, List.map_cons]
    congr 1
    apply List.map_congr_left
    intro q hq
    rw [hnr.2, lookupBy_filter_gt f (f l.1) (f q.1) (hlhead q hq)]

/-- Correctness of the full merge-join: on key-sorted inputs it pairs each left
value, in order, with the value found under its key on the right. -/
theorem joinLeft_spec {K U V α : Type} [LinearOrder α] (f : K → α)
    (left : List (K × U)) (right : List (K × V))
    (hl : left.Pairwise (fun p q => f p.1 < f q.1))
    (hr : right.Pairwise (fun p q => f p.1 < f q.1)) :
    joinLeft (cmpBy f) left right
      = left.map fun p => (p.2, lookupBy f (f p.1) right) := by
  have := leftJoinAux_spec f left none right hl (by simpa using hr)
  simpa [joinLeft] using this

instance {C : Type} (out : List (IssueState C)) : Decidable (DepOrdered out) :=
  inferInstanceAs (Decidable (∀ i : Fin out.length, ∀ p ∈ (out.get i).relations,
    ∃ j : Fin out.length, j.val < i.val ∧ (out.get j).name = p.1.name))

theorem cmp_eq_cmpBy {C : Type} :
    (IssueState.cmp : IssueState C → IssueState C → Ordering)
      = cmpBy IssueState.name := rfl

theorem name_inj {C : Type} (states : List (IssueState C))
    (hst : states.Pairwise (fun a b => a.name < b.name)) :
    ∀ a ∈ states, ∀ b ∈ states, a.name = b.name → a = b := by
  induction states with
  | nil => intro a ha; cases ha
  | cons x l ih =>
    intro a ha b hb heq
    have hx := (List.pairwise_cons.mp hst).1
    have hl := (List.pairwise_cons.mp hst).2
    rcases List.mem_cons.mp ha with rfl | ha'
    · rcases List.mem_cons.mp hb with rfl | hb'
      · rfl
      · exact absurd heq (ne_of_lt (hx b hb'))
    · rcases List.mem_cons.mp hb with rfl | hb'
      · exact absurd heq (ne_of_gt (hx a ha'))
      · exact ih hl a ha' b hb' heq

theorem lookupBy_isSome {K V α : Type} [LinearOrder α] (f : K → α) (k : α)
    (l : List (K × V)) :
    (lookupBy f k l).isSome = true ↔ ∃ x ∈ l, f x.1 = k := by
  simp [lookupBy, List.find?_isSome]

/-- Characterisation of the builder's per-state readiness check: a state is
ready exactly when none of its relation targets is (by name) a member of the
unresolved set.  A target absent from the set does not block readiness. -/
theorem readyState_iff {C : Type} (s : IssueState C)
    (states : List (IssueState C))
    (hrel : s.relations.Pairwise (fun p q => p.1.name < q.1.name))
    (hst : states.Pairwise (fun a b => a.name < b.name)) :
    readyState s states = true ↔
      ∀ p ∈ s.relations, ∀ t ∈ states, t.name ≠ p.1.name := by
  have hmap : (states.map fun t => (t, ())).Pairwise
      (fun p q => p.1.name < q.1.name) :=
    List.pairwise_map.mpr (by simpa using hst)
  have hjoin := joinLeft_spec IssueState.name s.relations
    (states.map fun t => (t, ())) hrel hmap
  rw [readyState, cmp_eq_cmpBy, hjoin]
  rw [Bool.not_eq_true', List.any_eq_false]
  constructor
  · intro h p hp t ht heq
    have hnotsome : (lookupBy IssueState.name p.1.name
        (states.map fun t => (t, ()))).isSome = false := by
      simpa using h _ (List.mem_map.mpr ⟨p, hp, rfl⟩)
    have hsome : (lookupBy IssueState.name p.1.name
        (states.map fun t => (t, ()))).isSome = true :=
      (lookupBy_isSome _ _ _).mpr ⟨(t, ()), List.mem_map.mpr ⟨t, ht, rfl⟩, heq⟩
    rw [hsome] at hnotsome
    cases hnotsome
  · intro h q hq
    rcases List.mem_map.mp hq with ⟨p, hp, rfl⟩
    intro hsome
    rcases (lookupBy_isSome _ _ _).mp hsome with ⟨x, hx, hxe⟩
    rcases List.mem_map.mp hx with ⟨t, ht, rfl⟩
    exact h p hp t ht hxe

theorem from_set_nil {C : Type} : from_set ([] : List (IssueState C)) = Except.ok [] := by
  rw [from_set]
  rfl

theorem from_set_stuck {C : Type} (states : List (IssueState C))
    (h : ¬states.isEmpty = true) (hb : (readyBatch states).isEmpty = true) :
    from_set states = Except.error ErrorKind.CyclicDependency := by
  rw [from_set]
  simp [h, hb]

theorem from_set_cons {C : Type} (states : List (IssueState C))
    (h : ¬states.isEmpty = true) (hb : ¬(readyBatch states).isEmpty = true) :
    from_set states = match from_set (removeBatch (readyBatch states) states) with
      | Except.ok rest => Except.ok (readyBatch states ++ rest)
      | Except.error e => Except.error e := by
  rw [from_set]
  simp [h, hb]

theorem beq_iff {C : Type} (a b : IssueState C) :
    IssueState.beq a b = true ↔ a.name = b.name := by
  simp [IssueState.beq]

/-- With unique names, removing the ready batch is the same as keeping exactly
the non-ready states. -/
theorem removeBatch_eq {C : Type} (states : List (IssueState C))
    (hst : states.Pairwise (fun a b => a.name < b.name)) :
    removeBatch (readyBatch states) states
      = states.filter fun s => !readyState s states := by
  unfold removeBatch
  apply List.filter_congr
  intro s hs
  have : ((readyBatch states).any fun b => IssueState.beq b s)
      = readyState s states := by
    cases hr : readyState s states with
    | true =>
      exact List.any_eq_true.mpr ⟨s, List.mem_filter.mpr ⟨hs, hr⟩, beq_self s⟩
    | false =>
      rw [List.any_eq_false]
      intro b hbm
      intro hbe
      have hbs := List.mem_filter.mp hbm
      have hname := (beq_iff b s).mp hbe
      have : b = s := name_inj states hst b hbs.1 s hs hname
      rw [this] at hbs
      rw [hbs.2] at hr
      cases hr
  rw [this]

theorem mem_removeBatch {C : Type} (states : List (IssueState C))
    (hst : states.Pairwise (fun a b => a.name < b.name))
    (s : IssueState C) :
    s ∈ removeBatch (readyBatch states) states
      ↔ s ∈ states ∧ readyState s states = false := by
  rw [removeBatch_eq states hst]
  simp [List.mem_filter]

theorem get_append_lt {α : Type} (l₁ l₂ : List α) (i : Nat) (h : i < l₁.length)
    (h2 : i < (l₁ ++ l₂).length) :
    (l₁ ++ l₂).get ⟨i, h2⟩ = l₁.get ⟨i, h⟩ := by
  rw [List.get_eq_getElem, List.get_eq_getElem]
  exact List.getElem_append_left h

theorem get_append_ge {α : Type} (l₁ l₂ : List α) (i : Nat)
    (h1 : l₁.length ≤ i) (h2 : i < (l₁ ++ l₂).length)
    (h3 : i - l₁.length < l₂.length) :
    (l₁ ++ l₂).get ⟨i, h2⟩ = l₂.get ⟨i - l₁.length, h3⟩ := by
  rw [List.get_eq_getElem, List.get_eq_getElem]
  exact List.getElem_append_right h1

/-- Conditional dependency order: every relation target whose name names a
member of `states` appears strictly earlier in `out`. -/
def RelOrdFrom {C : Type} (states out : List (IssueState C)) : Prop :=
  ∀ i : Fin out.length, ∀ p ∈ (out.get i).relations,
    (∃ t ∈ states, t.name = p.1.name) →
    ∃ j : Fin out.length, j.val < i.val ∧ (out.get j).name = p.1.name

theorem from_set_aux {C : Type} :
    ∀ (n : Nat) (states : List (IssueState C)), states.length ≤ n →
      states.Pairwise (fun a b => a.name < b.name) →
      (∀ s ∈ states, s.relations.Pairwise (fun p q => p.1.name < q.1.name)) →
      (∀ S ∈ states.sublists, ∀ s0 ∈ S, ∃ s ∈ S,
          ∀ p ∈ s.relations, ∀ t ∈ S, t.name ≠ p.1.name) →
      ∃ out, from_set states = Except.ok out ∧ out.Perm states
        ∧ RelOrdFrom states out := by
  intro n
  induction n with
  | zero =>
    intro states hlen _ _ _
    have : states = [] := List.length_eq_zero.mp (Nat.le_zero.mp hlen)
    subst this
    exact ⟨[], from_set_nil, List.Perm.refl _, fun i => i.elim0⟩
  | succ n ih =>
    intro states hlen hst hrel hacyc
    by_cases hemp : states.isEmpty = true
    · have : states = [] := List.isEmpty_iff.mp hemp
      subst this
      exact ⟨[], from_set_nil, List.Perm.refl _, fun i => i.elim0⟩
    · rcases List.exists_mem_of_ne_nil states (by simpa [List.isEmpty_iff] using hemp)
        with ⟨s0, hs0⟩
      rcases hacyc states (List.mem_sublists.mpr (List.Sublist.refl states)) s0 hs0
        with ⟨src, hsrc, hsrcOk⟩
      have hsrcReady : readyState src states = true :=
        (readyState_iff src states (hrel src hsrc) hst).mpr hsrcOk
      have hbne : ¬(readyBatch states).isEmpty = true := by
        rw [List.isEmpty_iff]
        intro hEq
        have : src ∈ readyBatch states := List.mem_filter.mpr ⟨hsrc, hsrcReady⟩
        rw [hEq] at this
        cases this
      have hlt := removeBatch_length_lt states hbne
      have hrest_sorted : (removeBatch (readyBatch states) states).Pairwise
          (fun a b => a.name < b.name) := hst.filter _
      have hrest_sub : (removeBatch (readyBatch states) states).Sublist states :=
        List.filter_sublist _
      have hrest_rel : ∀ s ∈ removeBatch (readyBatch states) states,
          s.relations.Pairwise (fun p q => p.1.name < q.1.name) :=
        fun s hs => hrel s (hrest_sub.subset hs)
      have hrest_acyc : ∀ S ∈ (removeBatch (readyBatch states) states).sublists,
          ∀ t0 ∈ S, ∃ s ∈ S, ∀ p ∈ s.relations, ∀ t ∈ S, t.name ≠ p.1.name :=
        fun S hS =>
          hacyc S (List.mem_sublists.mpr ((List.mem_sublists.mp hS).trans hrest_sub))
      rcases ih (removeBatch (readyBatch states) states) (by omega) hrest_sorted
        hrest_rel hrest_acyc with ⟨out', hout', hperm', hord'⟩
      refine ⟨readyBatch states ++ out', ?_, ?_, ?_⟩
      · rw [from_set_cons states hemp hbne, hout']
      · have h1 : (readyBatch states ++ out').Perm
            (readyBatch states ++ removeBatch (readyBatch states) states) :=
          List.Perm.append_left _ hperm'
        have h2 : (readyBatch states
            ++ removeBatch (readyBatch states) states).Perm states := by
          rw [removeBatch_eq states hst]
          exact List.filter_append_perm _ states
        exact h1.trans h2
      · intro i p hp hex
        have hlen2 : (readyBatch states ++ out').length
            = (readyBatch states).length + out'.length := by simp
        by_cases hib : i.val < (readyBatch states).length
        · have hgb : (readyBatch states ++ out').get i
              = (readyBatch states).get ⟨i.val, hib⟩ := get_append_lt _ _ _ hib i.isLt
          have hbm : (readyBatch states).get ⟨i.val, hib⟩ ∈ readyBatch states :=
            List.get_mem _ _ _
          have hfm := List.mem_filter.mp hbm
          have hp2 : p ∈ ((readyBatch states).get ⟨i.val, hib⟩).relations := by
            rw [← hgb]
            exact hp
          rcases hex with ⟨t, ht, hte⟩
          have := (readyState_iff _ states (hrel _ hfm.1) hst).mp hfm.2 p hp2 t ht
          exact absurd hte this
        · push_neg at hib
          have hiv : i.val - (readyBatch states).length < out'.length := by
            have h3 := i.isLt
            omega
          have hgo : (readyBatch states ++ out').get i
              = out'.get ⟨i.val - (readyBatch states).length, hiv⟩ :=
            get_append_ge _ _ _ hib i.isLt hiv
          by_cases hrest : ∃ t ∈ removeBatch (readyBatch states) states,
              t.name = p.1.name
          · have hp2 : p ∈ (out'.get
                ⟨i.val - (readyBatch states).length, hiv⟩).relations := by
              rw [← hgo]
              exact hp
            rcases hord' ⟨i.val - (readyBatch states).length, hiv⟩ p hp2 hrest
              with ⟨j', hj', hje⟩
            have hj2 : j'.val < i.val - (readyBatch states).length := hj'
            have hj3 := j'.isLt
            have hjlt : (readyBatch states).length + j'.val
                < (readyBatch states ++ out').length := by
              rw [hlen2]
              omega
            refine ⟨⟨(readyBatch states).length + j'.val, hjlt⟩,
              show (readyBatch states).length + j'.val < i.val by omega, ?_⟩
            rw [get_append_ge _ _ _ (by omega) hjlt
              (by simpa using j'.isLt)]
            have : (readyBatch states).length + j'.val - (readyBatch states).length
                = j'.val := by omega
            simp only [this]
            rw [show (⟨j'.val, by simpa using j'.isLt⟩ : Fin out'.length) = j' from rfl]
            exact hje
          · rcases hex with ⟨t, ht, hte⟩
            have htdrop : t ∉ removeBatch (readyBatch states) states :=
              fun hmem => hrest ⟨t, hmem, hte⟩
            have hkeep : ¬(!((readyBatch states).any fun b => IssueState.beq b t))
                = true := by
              intro hk
              exact htdrop (List.mem_filter.mpr ⟨ht, hk⟩)
            have hany : ((readyBatch states).any fun b => IssueState.beq b t)
                = true := by
              simpa using hkeep
            rcases List.any_eq_true.mp hany with ⟨b, hbm, hbe⟩
            rcases List.mem_iff_get.mp hbm with ⟨jb, hjbe⟩
            have hjlt : jb.val < (readyBatch states ++ out').length := by
              rw [hlen2]
              have := jb.isLt
              omega
            refine ⟨⟨jb.val, hjlt⟩,
              show jb.val < i.val from lt_of_lt_of_le jb.isLt hib, ?_⟩
            rw [get_append_lt _ _ _ jb.isLt hjlt]
            rw [show (⟨jb.val, jb.isLt⟩ : Fin (readyBatch states).length) = jb from rfl]
            rw [hjbe]
            rw [(beq_iff b t).mp hbe, hte]

/-- C2: for every acyclic, transitively-closed, duplicate-free set of states
(given in its ascending by-name `BTreeSet` order, with each state's relation
map likewise sorted), `from_set` terminates and returns `Ok` with an ordered
catalog — a permutation of the input in which every relation target (of kind
`Extends` or `Overrides` alike) of every state appears strictly earlier than
the state referring to it.  Acyclicity is rendered as: every sublist with a
member contains a state none of whose relation targets names a member. -/
theorem from_set_correct {C : Type} (states : List (IssueState C))
    (hst : states.Pairwise (fun a b => a.name < b.name))
    (hrel : ∀ s ∈ states, s.relations.Pairwise (fun p q => p.1.name < q.1.name))
    (hclosed : ∀ s ∈ states, ∀ p ∈ s.relations, ∃ t ∈ states, t.name = p.1.name)
    (hacyc : ∀ S ∈ states.sublists, ∀ s0 ∈ S, ∃ s ∈ S,
        ∀ p ∈ s.relations, ∀ t ∈ S, t.name ≠ p.1.name) :
    ∃ out, from_set states = Except.ok out ∧ out.Perm states ∧ DepOrdered out := by
  rcases from_set_aux states.length states le_rfl hst hrel hacyc with ⟨out, h1, h2, h3⟩
  refine ⟨out, h1, h2, ?_⟩
  intro i p hp
  exact h3 i p hp
    (hclosed (out.get i) (h2.subset (List.get_mem _ _ _)) p hp)

theorem from_set_cycle_aux {C : Type} :
    ∀ (n : Nat) (states : List (IssueState C)) (S : List (List Char)),
      states.length ≤ n →
      states.Pairwise (fun a b => a.name < b.name) →
      (∀ s ∈ states, s.relations.Pairwise (fun p q => p.1.name < q.1.name)) →
      S ≠ [] →
      (∀ nm ∈ S, ∃ s ∈ states, s.name = nm ∧ ∃ p ∈ s.relations, p.1.name ∈ S) →
      from_set states = Except.error ErrorKind.CyclicDependency := by
  intro n
  induction n with
  | zero =>
    intro states S hlen _ _ hne hcyc
    have hempty : states = [] := List.length_eq_zero.mp (Nat.le_zero.mp hlen)
    rcases List.exists_mem_of_ne_nil S hne with ⟨nm, hnm⟩
    rcases hcyc nm hnm with ⟨s, hs, _⟩
    rw [hempty] at hs
    cases hs
  | succ n ih =>
    intro states S hlen hst hrel hne hcyc
    rcases List.exists_mem_of_ne_nil S hne with ⟨nm0, hnm0⟩
    rcases hcyc nm0 hnm0 with ⟨s0, hs0, _⟩
    have hemp : ¬states.isEmpty = true := by
      rw [List.isEmpty_iff]
      intro hEq
      rw [hEq] at hs0
      cases hs0
    have hnotready : ∀ nm ∈ S, ∀ s ∈ states, s.name = nm →
        (∃ p ∈ s.relations, p.1.name ∈ S) → readyState s states = false := by
      intro nm hnm s hs _ hsp
      rw [Bool.eq_false_iff]
      intro hready
      rcases hsp with ⟨p, hp, hpS⟩
      rcases hcyc p.1.name hpS with ⟨t, ht, hteq, _⟩
      exact (readyState_iff s states (hrel s hs) hst).mp hready p hp t ht hteq
    by_cases hbe : (readyBatch states).isEmpty = true
    · exact from_set_stuck states hemp hbe
    · rw [from_set_cons states hemp hbe]
      have hrest : from_set (removeBatch (readyBatch states) states)
          = Except.error ErrorKind.CyclicDependency := by
        apply ih (removeBatch (readyBatch states) states) S
        · have := removeBatch_length_lt states hbe
          omega
        · exact hst.filter _
        · exact fun s hs => hrel s ((List.filter_sublist _).subset hs)
        · exact hne
        · intro nm hnm
          rcases hcyc nm hnm with ⟨s, hs, hsn, hsp⟩
          refine ⟨s, ?_, hsn, hsp⟩
          exact (mem_removeBatch states hst s).mpr
            ⟨hs, hnotready nm hnm s hs hsn hsp⟩
      rw [hrest]

/-- C3: an input set in which some non-empty subset of the states forms a
relation cycle (every name in the subset is a state having a relation target
inside the subset; `Extends` and `Overrides` are treated uniformly here) makes
`from_set` return the `CyclicDependency` error, producing no partial
catalog. -/
theorem from_set_cyclic {C : Type} (states : List (IssueState C))
    (S : List (List Char))
    (hst : states.Pairwise (fun a b => a.name < b.name))
    (hrel : ∀ s ∈ states, s.relations.Pairwise (fun p q => p.1.name < q.1.name))
    (hne : S ≠ [])
    (hcyc : ∀ nm ∈ S, ∃ s ∈ states, s.name = nm ∧ ∃ p ∈ s.relations, p.1.name ∈ S) :
    from_set states = Except.error ErrorKind.CyclicDependency :=
  from_set_cycle_aux states.length states S le_rfl hst hrel hne hcyc

/-- C8: the closure precondition is not checked: a relation target absent from
the input set is silently treated as already resolved — readiness of a state
depends exactly on its in-set targets, so a state all of whose targets are
out-of-set is emitted in the first batch, and on an acyclic (but not
necessarily transitively closed) set `from_set` still succeeds. -/
theorem from_set_unclosed {C : Type} (states : List (IssueState C))
    (hst : states.Pairwise (fun a b => a.name < b.name))
    (hrel : ∀ s ∈ states, s.relations.Pairwise (fun p q => p.1.name < q.1.name))
    (hacyc : ∀ S ∈ states.sublists, ∀ s0 ∈ S, ∃ s ∈ S,
        ∀ p ∈ s.relations, ∀ t ∈ S, t.name ≠ p.1.name) :
    (∀ s ∈ states, (readyState s states = true ↔
        ∀ p ∈ s.relations, ∀ t ∈ states, t.name ≠ p.1.name)) ∧
    ∃ out, from_set states = Except.ok out ∧ out.Perm states := by
  constructor
  · exact fun s hs => readyState_iff s states (hrel s hs) hst
  · rcases from_set_aux states.length states le_rfl hst hrel hacyc
      with ⟨out, h1, h2, _⟩
    exact ⟨out, h1, h2⟩

def c2a : IssueState (List Char) := IssueState.mk "a".data [] []

def c2b : IssueState (List Char) :=
  IssueState.mk "b".data [] [(IssueState.mk "a".data [] [], StateRelation.Extends)]

def c2c : IssueState (List Char) :=
  IssueState.mk "c".data [] [(IssueState.mk "b".data [] [], StateRelation.Overrides)]

/-- Witness for C2 at a concrete three-state chain mixing `Extends` and
`Overrides`. -/
theorem from_set_correct_witness :
    ([c2a, c2b, c2c].Pairwise (fun a b => a.name < b.name)) ∧
    (∀ s ∈ [c2a, c2b, c2c],
      s.relations.Pairwise (fun p q => p.1.name < q.1.name)) ∧
    (∀ s ∈ [c2a, c2b, c2c], ∀ p ∈ s.relations,
      ∃ t ∈ [c2a, c2b, c2c], t.name = p.1.name) ∧
    (∀ S ∈ [c2a, c2b, c2c].sublists, ∀ s0 ∈ S, ∃ s ∈ S,
      ∀ p ∈ s.relations, ∀ t ∈ S, t.name ≠ p.1.name) ∧
    ∃ out, from_set [c2a, c2b, c2c] = Except.ok out
      ∧ out.Perm [c2a, c2b, c2c] ∧ DepOrdered out :=
  ⟨by decide, by decide, by decide, by decide,
    from_set_correct [c2a, c2b, c2c] (by decide) (by decide) (by decide) (by decide)⟩

def c3a : IssueState (List Char) :=
  IssueState.mk "a".data [] [(IssueState.mk "b".data [] [], StateRelation.Overrides)]

def c3b : IssueState (List Char) :=
  IssueState.mk "b".data [] [(IssueState.mk "a".data [] [], StateRelation.Overrides)]

/-- Witness for C3 at the two-state `Overrides` cycle of the spec's example. -/
theorem from_set_cyclic_witness :
    ([c3a, c3b].Pairwise (fun a b => a.name < b.name)) ∧
    (∀ s ∈ [c3a, c3b], s.relations.Pairwise (fun p q => p.1.name < q.1.name)) ∧
    (["a".data, "b".data] ≠ ([] : List (List Char))) ∧
    (∀ nm ∈ ["a".data, "b".data], ∃ s ∈ [c3a, c3b], s.name = nm
      ∧ ∃ p ∈ s.relations, p.1.name ∈ ["a".data, "b".data]) ∧
    from_set [c3a, c3b] = Except.error ErrorKind.CyclicDependency :=
  ⟨by decide, by decide, by decide, by decide,
    from_set_cyclic [c3a, c3b] ["a".data, "b".data]
      (by decide) (by decide) (by decide) (by decide)⟩

def c8a : IssueState (List Char) :=
  IssueState.mk "a".data [] [(IssueState.mk "zz".data [] [], StateRelation.Extends)]

/-- Witness for C8 at a one-state set whose only relation target is absent
from the set. -/
theorem from_set_unclosed_witness :
    ([c8a].Pairwise (fun a b => a.name < b.name)) ∧
    (∀ s ∈ [c8a], s.relations.Pairwise (fun p q => p.1.name < q.1.name)) ∧
    (∀ S ∈ [c8a].sublists, ∀ s0 ∈ S, ∃ s ∈ S,
      ∀ p ∈ s.relations, ∀ t ∈ S, t.name ≠ p.1.name) ∧
    ((∀ s ∈ [c8a], (readyState s [c8a] = true ↔
        ∀ p ∈ s.relations, ∀ t ∈ [c8a], t.name ≠ p.1.name)) ∧
      ∃ out, from_set [c8a] = Except.ok out ∧ out.Perm [c8a]) :=
  ⟨by decide, by decide, by decide,
    from_set_unclosed [c8a] (by decide) (by decide) (by decide)⟩

/-- C5: for every pair of input sequences that are strictly ascending by a
shared linearly ordered key type (hence with keys unique within each
sequence), the merge-join yields exactly one tuple per left element, in left
order, pairing the left value with `some` of the right value stored under the
left element's key when one exists, and with `none` otherwise. -/
theorem leftJoin_correct {K U V : Type} [LinearOrder K]
    (left : List (K × U)) (right : List (K × V))
    (hl : left.Pairwise (fun p q => p.1 < q.1))
    (hr : right.Pairwise (fun p q => p.1 < q.1)) :
    joinLeft (cmpBy id) left right
      = left.map fun p => (p.2, lookupBy id p.1 right) :=
  joinLeft_spec id left right hl hr

/-- Witness for C5 at the example of the spec (and of the test in
src/iter.rs), including the concrete output sequence. -/
theorem leftJoin_correct_witness :
    ([(1, "a"), (3, "b"), (4, "c"), (7, "d"), (8, "e")]
      : List (Nat × String)).Pairwise (fun p q => p.1 < q.1) ∧
    ([(2, "x"), (3, "u"), (4, "v"), (5, "x"), (6, "x"), (7, "w")]
      : List (Nat × String)).Pairwise (fun p q => p.1 < q.1) ∧
    joinLeft (cmpBy id) [(1, "a"), (3, "b"), (4, "c"), (7, "d"), (8, "e")]
        [(2, "x"), (3, "u"), (4, "v"), (5, "x"), (6, "x"), (7, "w")]
      = [("a", none), ("b", some "u"), ("c", some "v"), ("d", some "w"),
          ("e", none)] :=
  ⟨by decide, by decide,
    (leftJoin_correct [(1, "a"), (3, "b"), (4, "c"), (7, "d"), (8, "e")]
        [(2, "x"), (3, "u"), (4, "v"), (5, "x"), (6, "x"), (7, "w")]
        (by decide) (by decide)).trans (by decide)⟩

theorem all_congr' {A : Type} (l : List A) (f g : A → Bool)
    (h : ∀ a ∈ l, f a = g a) : l.all f = l.all g := by
  induction l with
  | nil => rfl
  | cons a l ih =>
    simp only [List.all_cons]
    rw [h a (List.mem_cons_self a l), ih (fun x hx => h x (List.mem_cons_of_mem a hx))]

theorem all_filterMap {A B : Type} (g : A → Option B) (q : B → Bool) (l : List A) :
    (l.filterMap g).all q = l.all fun a => ((g a).map q).getD true := by
  induction l with
  | nil => rfl
  | cons a l ih =>
    cases hga : g a <;> simp [List.filterMap_cons, hga, ih]

theorem foldl_optAnd_none (L : List (Option Bool)) : L.foldl optAnd none = none := by
  induction L with
  | nil => rfl
  | cons x L ih => cases x <;> simpa [optAnd] using ih

theorem foldl_optAnd (L : List (Option Bool)) :
    ∀ b : Bool, L.foldl optAnd (some b)
      = if L.all Option.isSome = true
        then some (b && L.all fun x => x.getD false) else none := by
  induction L with
  | nil => intro b; simp
  | cons x L ih =>
    intro b
    cases x with
    | none => simp [List.foldl_cons, optAnd, foldl_optAnd_none]
    | some v =>
      rw [List.foldl_cons]
      show List.foldl optAnd (some (b && v)) L = _
      rw [ih]
      by_cases hall : L.all Option.isSome = true
      · simp [hall, Bool.and_assoc]
      · simp [hall]

theorem filterMap_ext {A B : Type} (l : List A) (f g : A → Option B)
    (h : ∀ a ∈ l, f a = g a) : l.filterMap f = l.filterMap g := by
  induction l with
  | nil => rfl
  | cons a l ih =>
    rw [List.filterMap_cons, List.filterMap_cons,
      h a (List.mem_cons_self a l), ih (fun x hx => h x (List.mem_cons_of_mem a hx))]

/-- Evaluation of `deps_enabled` on sorted inputs: it fails with
`DependencyError` exactly when some `Extends` target is missing from the map,
and otherwise returns the conjunction of the mapped values of the `Extends`
targets, `Overrides` relations being ignored. -/
theorem deps_enabled_eq {C : Type} (s : IssueState C)
    (map : List (IssueState C × Bool))
    (hrel : s.relations.Pairwise (fun p q => p.1.name < q.1.name))
    (hm : map.Pairwise (fun p q => p.1.name < q.1.name)) :
    deps_enabled s map =
      if (s.relations.all fun p => p.2 == StateRelation.Overrides
            || (lookupBy IssueState.name p.1.name map).isSome) = true
      then Except.ok (s.relations.all fun p => p.2 == StateRelation.Overrides
            || (lookupBy IssueState.name p.1.name map).getD false)
      else Except.error ErrorKind.DependencyError := by
  have hjoin := joinLeft_spec IssueState.name s.relations map hrel hm
  have hstep : ((joinLeft IssueState.cmp s.relations map).filterMap fun item =>
      match item.1 with
      | StateRelation.Extends => some item.2
      | StateRelation.Overrides => none)
      = s.relations.filterMap fun p =>
          if p.2 == StateRelation.Extends
          then some (lookupBy IssueState.name p.1.name map) else none := by
    rw [cmp_eq_cmpBy, hjoin, List.filterMap_map]
    apply filterMap_ext
    intro p _
    rcases p with ⟨t, r⟩
    cases r <;> rfl
  unfold deps_enabled
  rw [hstep, foldl_optAnd, all_filterMap, all_filterMap]
  have hA : (s.relations.all fun a =>
      (((if a.2 == StateRelation.Extends
          then some (lookupBy IssueState.name a.1.name map)
          else none)).map Option.isSome).getD true)
      = s.relations.all fun p => p.2 == StateRelation.Overrides
          || (lookupBy IssueState.name p.1.name map).isSome := by
    apply all_congr'
    intro a _
    rcases a with ⟨t, r⟩
    cases r <;> rfl
  have hB : (s.relations.all fun a =>
      (((if a.2 == StateRelation.Extends
          then some (lookupBy IssueState.name a.1.name map)
          else none)).map fun x => x.getD false).getD true)
      = s.relations.all fun p => p.2 == StateRelation.Overrides
          || (lookupBy IssueState.name p.1.name map).getD false := by
    apply all_congr'
    intro a _
    rcases a with ⟨t, r⟩
    cases r <;> rfl
  rw [hA, hB]
  by_cases hc : (s.relations.all fun p => p.2 == StateRelation.Overrides
      || (lookupBy IssueState.name p.1.name map).isSome) = true
  · simp [hc]
  · simp [hc]

theorem mapInsert_mem {C : Type} (key : IssueState C) (v : Bool) :
    ∀ (m : List (IssueState C × Bool)) (x : IssueState C × Bool),
      x ∈ mapInsert key v m → x = (key, v) ∨ x ∈ m := by
  intro m
  induction m with
  | nil =>
    intro x hx
    simp only [mapInsert] at hx
    exact Or.inl (by simpa using hx)
  | cons kw m ih =>
    intro x hx
    rcases kw with ⟨k, w⟩
    cases hc : IssueState.cmp key k with
    | lt =>
      simp only [mapInsert, hc] at hx
      rcases List.mem_cons.mp hx with rfl | hx
      · exact Or.inl rfl
      · exact Or.inr hx
    | eq =>
      simp only [mapInsert, hc] at hx
      rcases List.mem_cons.mp hx with rfl | hx
      · exact Or.inl rfl
      · exact Or.inr (List.mem_cons_of_mem _ hx)
    | gt =>
      simp only [mapInsert, hc] at hx
      rcases List.mem_cons.mp hx with rfl | hx
      · exact Or.inr (List.mem_cons_self _ _)
      · rcases ih x hx with h | h
        · exact Or.inl h
        · exact Or.inr (List.mem_cons_of_mem _ h)

theorem mapInsert_sorted {C : Type} (key : IssueState C) (v : Bool) :
    ∀ (m : List (IssueState C × Bool)),
      m.Pairwise (fun p q => p.1.name < q.1.name) →
      (mapInsert key v m).Pairwise (fun p q => p.1.name < q.1.name) := by
  intro m
  induction m with
  | nil => intro _; simp [mapInsert]
  | cons kw m ih =>
    intro hm
    rcases kw with ⟨k, w⟩
    have hhead := (List.pairwise_cons.mp hm).1
    have htail := (List.pairwise_cons.mp hm).2
    cases hc : IssueState.cmp key k with
    | lt =>
      have hlt : key.name < k.name := (cmpBy_eq_lt IssueState.name key k).mp hc
      simp only [mapInsert, hc]
      refine List.pairwise_cons.mpr ⟨?_, hm⟩
      intro q hq
      rcases List.mem_cons.mp hq with rfl | hq
      · exact hlt
      · exact lt_trans hlt (hhead q hq)
    | eq =>
      have heq : key.name = k.name := (cmpBy_eq_eq IssueState.name key k).mp hc
      simp only [mapInsert, hc]
      refine List.pairwise_cons.mpr ⟨?_, htail⟩
      intro q hq
      rw [show (key, v).1 = key from rfl, heq]
      exact hhead q hq
    | gt =>
      have hgt : k.name < key.name := (cmpBy_eq_gt IssueState.name key k).mp hc
      simp only [mapInsert, hc]
      refine List.pairwise_cons.mpr ⟨?_, ih htail⟩
      intro q hq
      rcases mapInsert_mem key v m q hq with rfl | hq
      · exact hgt
      · exact hhead q hq

theorem mapInsert_lookup {C : Type} (key : IssueState C) (v : Bool)
    (n : List Char) :
    ∀ (m : List (IssueState C × Bool)),
      m.Pairwise (fun p q => p.1.name < q.1.name) →
      lookupBy IssueState.name n (mapInsert key v m)
        = if key.name = n then some v else lookupBy IssueState.name n m := by
  intro m
  induction m with
  | nil =>
    intro _
    simp only [mapInsert]
    rw [lookupBy_cons]
    by_cases hn : key.name = n <;> simp [hn]
  | cons kw m ih =>
    intro hm
    rcases kw with ⟨k, w⟩
    have htail := (List.pairwise_cons.mp hm).2
    cases hc : IssueState.cmp key k with
    | lt =>
      simp only [mapInsert, hc]
      rw [lookupBy_cons]
      by_cases hn : key.name = n <;> simp [hn]
    | eq =>
      have heq : key.name = k.name := (cmpBy_eq_eq IssueState.name key k).mp hc
      simp only [mapInsert, hc]
      rw [lookupBy_cons, lookupBy_cons]
      by_cases hn : key.name = n
      · simp [hn]
      · have hkn : ¬ k.name = n := heq ▸ hn
        simp [show ((key, v).1.name = n) = (key.name = n) from rfl, hn, hkn]
    | gt =>
      have hgt : k.name < key.name := (cmpBy_eq_gt IssueState.name key k).mp hc
      simp only [mapInsert, hc]
      rw [lookupBy_cons, lookupBy_cons, ih htail]
      by_cases hkn : k.name = n
      · have hn : ¬ key.name = n := by
          rw [← hkn]
          exact fun h => absurd h.symm (ne_of_lt hgt)
        simp [hkn, hn]
      · simp [hkn]

theorem issueStateLoop_spec {C I : Type} (sat : C → I → Bool) (issue : I) :
    ∀ (remaining : List (IssueState C)) (map : List (IssueState C × Bool))
      (acc : List (List Char × Bool)) (win : Option (IssueState C)),
      (∀ s ∈ remaining, s.relations.Pairwise (fun p q => p.1.name < q.1.name)) →
      map.Pairwise (fun p q => p.1.name < q.1.name) →
      (∀ n, lookupBy IssueState.name n map = assocLookup n acc) →
      (∀ i : Fin remaining.length, ∀ p ∈ (remaining.get i).relations,
        p.2 = StateRelation.Extends →
        (lookupBy IssueState.name p.1.name map).isSome = true
          ∨ ∃ j : Fin remaining.length, j.val < i.val
              ∧ (remaining.get j).name = p.1.name) →
      issueStateLoop sat issue remaining win map
        = Except.ok (specScan sat issue remaining acc win) := by
  intro remaining
  induction remaining with
  | nil => intro map acc win _ _ _ _; rfl
  | cons s rest ih =>
    intro map acc win hrel hm hagree hdeps
    have hrelS : s.relations.Pairwise (fun p q => p.1.name < q.1.name) :=
      hrel s (List.mem_cons_self s rest)
    have hdep0 : ∀ p ∈ s.relations, p.2 = StateRelation.Extends →
        (lookupBy IssueState.name p.1.name map).isSome = true := by
      intro p hp hpe
      rcases hdeps ⟨0, by simp⟩ p hp hpe with h | ⟨j, hj, _⟩
      · exact h
      · exact absurd hj (Nat.not_lt_zero _)
    have hcond : (s.relations.all fun p => p.2 == StateRelation.Overrides
        || (lookupBy IssueState.name p.1.name map).isSome) = true := by
      rw [List.all_eq_true]
      intro p hp
      cases hpe : p.2 with
      | Extends => simp [hpe, hdep0 p hp hpe]
      | Overrides => simp [hpe]
    have hde2 : deps_enabled s map = Except.ok (s.relations.all fun p =>
        p.2 == StateRelation.Overrides
          || (lookupBy IssueState.name p.1.name map).getD false) := by
      rw [deps_enabled_eq s map hrelS hm, if_pos hcond]
    have henabled : (if conditions_satisfied sat s issue
        then deps_enabled s map else Except.ok false)
        = Except.ok (specStep sat issue acc s) := by
      unfold specStep
      by_cases hcs : conditions_satisfied sat s issue = true
      · rw [if_pos hcs, hde2, hcs, Bool.true_and]
        congr 1
        apply all_congr'
        rintro ⟨t, r⟩ _
        cases r
        · simp [hagree]
        · simp
      · rw [if_neg hcs]
        have hfalse : conditions_satisfied sat s issue = false := by
          simpa using hcs
        rw [hfalse, Bool.false_and]
    simp only [issueStateLoop, specScan]
    rw [henabled]
    show issueStateLoop sat issue rest
        (if specStep sat issue acc s then some s else win)
        (mapInsert s (specStep sat issue acc s) map) = _
    apply ih
    · exact fun t ht => hrel t (List.mem_cons_of_mem s ht)
    · exact mapInsert_sorted s _ map hm
    · intro n
      rw [mapInsert_lookup s _ n map hm, hagree n]
      rfl
    · intro i' p hp hpe
      rcases hdeps i'.succ p (by simpa using hp) hpe with h | ⟨j, hj, hje⟩
      · left
        rw [mapInsert_lookup s _ _ map hm]
        by_cases hsn : s.name = p.1.name
        · simp [hsn]
        · simpa [hsn] using h
      · rcases j with ⟨jv, hjlt⟩
        have hj2 : jv < i'.val + 1 := hj
        cases jv with
        | zero =>
          left
          rw [mapInsert_lookup s _ _ map hm]
          have hsn : s.name = p.1.name := by simpa using hje
          simp [hsn]
        | succ jj =>
          right
          have hlen : (s :: rest).length = rest.length + 1 := rfl
          refine ⟨⟨jj, by omega⟩, show jj < i'.val by omega, ?_⟩
          simpa using hje

/-- C1: on a catalog satisfying the dependency-order invariant (with each
state's relation map sorted by target name), `issue_state` succeeds and equals
the specification scan: each state is enabled iff the AND of its own
conditions holds (vacuously true if it has none) and every `Extends`-related
target is recorded as enabled in the map, `Overrides` relations being excluded
from the gating; the last enabled state in scan order is returned, `none` if
no state is enabled. -/
theorem issue_state_correct {C I : Type} (sat : C → I → Bool)
    (data : List (IssueState C)) (issue : I)
    (hrel : ∀ s ∈ data, s.relations.Pairwise (fun p q => p.1.name < q.1.name))
    (hord : DepOrdered data) :
    issue_state sat data issue = Except.ok (resolveSpec sat data issue) := by
  unfold issue_state resolveSpec
  apply issueStateLoop_spec
  · exact hrel
  · exact List.Pairwise.nil
  · intro n
    rfl
  · intro i p hp _
    exact Or.inr (hord i p hp)

def c1new : IssueState (List Char) := IssueState.mk "new".data [] []

def c1ack : IssueState (List Char) :=
  IssueState.mk "acknowledged".data ["acked".data]
    [(IssueState.mk "new".data [] [], StateRelation.Overrides)]

def c1asg : IssueState (List Char) :=
  IssueState.mk "assigned".data ["assigned".data]
    [(IssueState.mk "acknowledged".data [] [], StateRelation.Extends)]

def c1cls : IssueState (List Char) :=
  IssueState.mk "closed".data ["closed".data]
    [(IssueState.mk "assigned".data [] [], StateRelation.Overrides)]

/-- Witness for C1 at the four-state end-to-end catalog of the spec, resolving
the issue with `acked` and `assigned` set to the `assigned` state. -/
theorem issue_state_correct_witness :
    (∀ s ∈ [c1new, c1ack, c1asg, c1cls],
      s.relations.Pairwise (fun p q => p.1.name < q.1.name)) ∧
    DepOrdered [c1new, c1ack, c1asg, c1cls] ∧
    issue_state testSat [c1new, c1ack, c1asg, c1cls]
        ["acked".data, "assigned".data]
      = Except.ok (some c1asg) :=
  ⟨by decide, by decide,
    (issue_state_correct testSat [c1new, c1ack, c1asg, c1cls]
      ["acked".data, "assigned".data] (by decide) (by decide)).trans rfl⟩

theorem deps_enabled_error {C : Type} (s : IssueState C)
    (map : List (IssueState C × Bool)) (e : ErrorKind)
    (h : deps_enabled s map = Except.error e) : e = ErrorKind.DependencyError := by
  unfold deps_enabled at h
  split at h
  · cases h
  · injection h with h
    exact h.symm

theorem issueStateLoop_error {C I : Type} (sat : C → I → Bool) (issue : I) :
    ∀ (remaining : List (IssueState C)) (map : List (IssueState C × Bool))
      (win : Option (IssueState C)),
      (∀ s ∈ remaining, s.relations.Pairwise (fun p q => p.1.name < q.1.name)) →
      map.Pairwise (fun p q => p.1.name < q.1.name) →
      (∃ i : Fin remaining.length,
        conditions_satisfied sat (remaining.get i) issue = true ∧
        ∃ p ∈ (remaining.get i).relations, p.2 = StateRelation.Extends ∧
          lookupBy IssueState.name p.1.name map = none ∧
          ∀ j : Fin remaining.length, j.val < i.val →
            (remaining.get j).name ≠ p.1.name) →
      issueStateLoop sat issue remaining win map
        = Except.error ErrorKind.DependencyError := by
  intro remaining
  induction remaining with
  | nil =>
    intro map win _ _ hex
    rcases hex with ⟨i, _⟩
    exact i.elim0
  | cons s rest ih =>
    intro map win hrel hm hex
    rcases hex with ⟨i, hcs, p, hp, hpe, hlook, hnej⟩
    rcases i with ⟨iv, hivlt⟩
    cases iv with
    | zero =>
      have h0 : ((s :: rest).get ⟨0, hivlt⟩) = s := rfl
      rw [h0] at hcs hp
      have hcond : ¬(s.relations.all fun q => q.2 == StateRelation.Overrides
          || (lookupBy IssueState.name q.1.name map).isSome) = true := by
        intro hall
        have := List.all_eq_true.mp hall p hp
        rw [hpe, hlook] at this
        simp at this
      have hde : deps_enabled s map = Except.error ErrorKind.DependencyError := by
        rw [deps_enabled_eq s map (hrel s (List.mem_cons_self s rest)) hm,
          if_neg hcond]
      simp only [issueStateLoop]
      rw [if_pos hcs, hde]
    | succ ii =>
      cases hE : (if conditions_satisfied sat s issue
          then deps_enabled s map else Except.ok false) with
      | error e =>
        have he : e = ErrorKind.DependencyError := by
          by_cases hcs0 : conditions_satisfied sat s issue = true
          · rw [if_pos hcs0] at hE
            exact deps_enabled_error s map e hE
          · rw [if_neg hcs0] at hE
            cases hE
        simp only [issueStateLoop]
        rw [hE, he]
      | ok E =>
        simp only [issueStateLoop]
        rw [hE]
        show issueStateLoop sat issue rest
            (if E then some s else win) (mapInsert s E map)
          = Except.error ErrorKind.DependencyError
        apply ih
        · exact fun t ht => hrel t (List.mem_cons_of_mem s ht)
        · exact mapInsert_sorted s _ map hm
        · have hii : ii < rest.length := by
            have : (s :: rest).length = rest.length + 1 := rfl
            omega
          have hsname : s.name ≠ p.1.name := by
            have hlen : (s :: rest).length = rest.length + 1 := rfl
            have h0lt : (0 : Nat) < ii + 1 := Nat.succ_pos ii
            exact hnej ⟨0, by omega⟩ (by simpa using h0lt)
          refine ⟨⟨ii, hii⟩, ?_, p, ?_, hpe, ?_, ?_⟩
          · exact hcs
          · exact hp
          · rw [mapInsert_lookup s _ _ map hm, if_neg hsname]
            exact hlook
          · intro j hj
            have hjlt : j.val + 1 < (s :: rest).length := by
              have : (s :: rest).length = rest.length + 1 := rfl
              have := j.isLt
              omega
            have := hnej ⟨j.val + 1, hjlt⟩ (by simpa using Nat.succ_lt_succ hj)
            simpa using this

def c6state : IssueState (List Char) :=
  IssueState.mk "a".data ["p".data]
    [(IssueState.mk "b".data [] [], StateRelation.Extends)]

/-- Counterexample to C6 as stated: the single visited state has an `Extends`
relation whose target is absent from the (empty) enabled map, yet because its
own condition is unsatisfied for the issue, `issue_state` returns `Ok(None)`
rather than failing with `DependencyError`. -/
theorem issue_state_missing_extends_cex :
    (∃ p ∈ c6state.relations, p.2 = StateRelation.Extends) ∧
    issue_state testSat [c6state] [] = Except.ok none ∧
    issue_state testSat [c6state] []
      ≠ Except.error ErrorKind.DependencyError :=
  ⟨by decide, rfl, fun h => Except.noConfusion ((rfl :
    issue_state testSat [c6state] [] = Except.ok none).symm.trans h)⟩

/-- C6 amended: during resolution, for every state reached whose own
conditions are all satisfied by the issue and whose relations include an
`Extends` relation whose target is absent from the enabledMap (no
earlier-visited state carries its name), `issue_state` fails with
`DependencyError`, and the error is returned to the caller. -/
theorem issue_state_missing_extends {C I : Type} (sat : C → I → Bool)
    (data : List (IssueState C)) (issue : I)
    (hrel : ∀ s ∈ data, s.relations.Pairwise (fun p q => p.1.name < q.1.name))
    (hmiss : ∃ i : Fin data.length,
      conditions_satisfied sat (data.get i) issue = true ∧
      ∃ p ∈ (data.get i).relations, p.2 = StateRelation.Extends ∧
        ∀ j : Fin data.length, j.val < i.val → (data.get j).name ≠ p.1.name) :
    issue_state sat data issue = Except.error ErrorKind.DependencyError := by
  unfold issue_state
  apply issueStateLoop_error
  · exact hrel
  · exact List.Pairwise.nil
  · rcases hmiss with ⟨i, hcs, p, hp, hpe, hnej⟩
    exact ⟨i, hcs, p, hp, hpe, rfl, hnej⟩

/-- Witness for C6 (amended) at a one-state catalog whose state has a
satisfied condition and an `Extends` relation to an absent target. -/
theorem issue_state_missing_extends_witness :
    (∀ s ∈ [c6state], s.relations.Pairwise (fun p q => p.1.name < q.1.name)) ∧
    (∃ i : Fin ([c6state].length),
      conditions_satisfied testSat ([c6state].get i) ["p".data] = true ∧
      ∃ p ∈ ([c6state].get i).relations, p.2 = StateRelation.Extends ∧
        ∀ j : Fin ([c6state].length), j.val < i.val →
          ([c6state].get j).name ≠ p.1.name) ∧
    issue_state testSat [c6state] ["p".data]
      = Except.error ErrorKind.DependencyError :=
  ⟨by decide, by decide,
    issue_state_missing_extends testSat [c6state] ["p".data]
      (by decide) (by decide)⟩

theorem issueStateLoop_ok {C I : Type} (sat : C → I → Bool) (issue : I) :
    ∀ (remaining : List (IssueState C)) (map : List (IssueState C × Bool))
      (win : Option (IssueState C)),
      (∀ s ∈ remaining, s.relations.Pairwise (fun p q => p.1.name < q.1.name)) →
      map.Pairwise (fun p q => p.1.name < q.1.name) →
      (∀ i : Fin remaining.length, ∀ p ∈ (remaining.get i).relations,
        p.2 = StateRelation.Extends →
        lookupBy IssueState.name p.1.name map = none →
        (∀ j : Fin remaining.length, j.val < i.val →
          (remaining.get j).name ≠ p.1.name) →
        conditions_satisfied sat (remaining.get i) issue = false) →
      ∃ r, issueStateLoop sat issue remaining win map = Except.ok r := by
  intro remaining
  induction remaining with
  | nil => intro map win _ _ _; exact ⟨win, rfl⟩
  | cons s rest ih =>
    intro map win hrel hm hsc
    have hstep : ∃ E, (if conditions_satisfied sat s issue
        then deps_enabled s map else Except.ok false) = Except.ok E := by
      by_cases hcs : conditions_satisfied sat s issue = true
      · have hcond : (s.relations.all fun q => q.2 == StateRelation.Overrides
            || (lookupBy IssueState.name q.1.name map).isSome) = true := by
          rw [List.all_eq_true]
          intro p hp
          cases hpe : p.2 with
          | Overrides => simp [hpe]
          | Extends =>
            cases hlook : lookupBy IssueState.name p.1.name map with
            | some b => simp [hlook]
            | none =>
              have h2 := hsc ⟨0, by simp⟩ p hp hpe hlook
                (fun j hj => absurd hj (Nat.not_lt_zero _))
              have h0 : ((s :: rest).get ⟨0, by simp⟩) = s := rfl
              rw [h0] at h2
              rw [hcs] at h2
              cases h2
        exact ⟨_, by rw [if_pos hcs,
          deps_enabled_eq s map (hrel s (List.mem_cons_self s rest)) hm,
          if_pos hcond]⟩
      · exact ⟨false, by rw [if_neg hcs]⟩
    rcases hstep with ⟨E, hE⟩
    simp only [issueStateLoop]
    rw [hE]
    show ∃ r, issueStateLoop sat issue rest
        (if E then some s else win) (mapInsert s E map) = Except.ok r
    apply ih
    · exact fun t ht => hrel t (List.mem_cons_of_mem s ht)
    · exact mapInsert_sorted s _ map hm
    · intro i' p hp hpe hlook hnej
      have hii : i'.val + 1 < (s :: rest).length := by
        have : (s :: rest).length = rest.length + 1 := rfl
        have := i'.isLt
        omega
      rw [mapInsert_lookup s _ _ map hm] at hlook
      by_cases hsn : s.name = p.1.name
      · rw [if_pos hsn] at hlook
        cases hlook
      · rw [if_neg hsn] at hlook
        have h2 := hsc ⟨i'.val + 1, hii⟩ p (by simpa using hp) hpe hlook ?_
        · simpa using h2
        · intro j hj
          have hj2 : j.val < i'.val + 1 := hj
          rcases j with ⟨jv, hjv⟩
          cases jv with
          | zero => exact hsn
          | succ jj =>
            have hjj : jj < rest.length := by
              have : (s :: rest).length = rest.length + 1 := rfl
              omega
            have := hnej ⟨jj, hjj⟩ (by simpa using Nat.lt_of_succ_lt_succ hj2)
            simpa using this

/-- C10: the per-state step evaluates the state's own conditions first and
short-circuits the `Extends`-gating check — whenever every state whose
relations include an `Extends` target absent from the enabledMap (no earlier
state carries the target's name) has some own condition unsatisfied for the
issue, resolution completes without raising `DependencyError`. -/
theorem issue_state_short_circuit {C I : Type} (sat : C → I → Bool)
    (data : List (IssueState C)) (issue : I)
    (hrel : ∀ s ∈ data, s.relations.Pairwise (fun p q => p.1.name < q.1.name))
    (hsc : ∀ i : Fin data.length, ∀ p ∈ (data.get i).relations,
      p.2 = StateRelation.Extends →
      (∀ j : Fin data.length, j.val < i.val → (data.get j).name ≠ p.1.name) →
      conditions_satisfied sat (data.get i) issue = false) :
    ∃ r, issue_state sat data issue = Except.ok r := by
  unfold issue_state
  apply issueStateLoop_ok
  · exact hrel
  · exact List.Pairwise.nil
  · intro i p hp hpe _ hnej
    exact hsc i p hp hpe hnej

def c10state : IssueState (List Char) :=
  IssueState.mk "a".data ["q".data]
    [(IssueState.mk "b".data [] [], StateRelation.Extends)]

/-- Witness for C10 at a one-state catalog whose state has an unsatisfied
condition and an `Extends` relation to an absent target: no error occurs. -/
theorem issue_state_short_circuit_witness :
    (∀ s ∈ [c10state], s.relations.Pairwise (fun p q => p.1.name < q.1.name)) ∧
    (∀ i : Fin ([c10state].length), ∀ p ∈ ([c10state].get i).relations,
      p.2 = StateRelation.Extends →
      (∀ j : Fin ([c10state].length), j.val < i.val →
        ([c10state].get j).name ≠ p.1.name) →
      conditions_satisfied testSat ([c10state].get i) [] = false) ∧
    ∃ r, issue_state testSat [c10state] [] = Except.ok r :=
  ⟨by decide, by decide,
    issue_state_short_circuit testSat [c10state] [] (by decide) (by decide)⟩

/-- Token of each match operator in the condition grammar (spec section 4.2). -/
def opToken : MatchOp → List Char
  | MatchOp.Equivalence => ['=']
  | MatchOp.LowerThan => ['<']
  | MatchOp.GreaterThan => ['>']
  | MatchOp.LowerThanOrEqual => ['<', '=']
  | MatchOp.GreaterThanOrEqual => ['>', '=']
  | MatchOp.Contains => ['~']

theorem findIdxAux_none (p : Char → Bool) :
    ∀ s : List Char, (∀ c ∈ s, p c = false) → findIdxAux p s = none := by
  intro s
  induction s with
  | nil => intro _; rfl
  | cons c rest ih =>
    intro h
    simp [findIdxAux, h c (List.mem_cons_self c rest),
      ih (fun x hx => h x (List.mem_cons_of_mem c hx))]

theorem findIdxAux_append (p : Char → Bool) (c : Char) (b : List Char)
    (hc : p c = true) :
    ∀ a : List Char, (∀ x ∈ a, p x = false) →
      findIdxAux p (a ++ c :: b) = some a.length := by
  intro a
  induction a with
  | nil => intro _; simp [findIdxAux, hc]
  | cons x a ih =>
    intro h
    simp [findIdxAux, h x (List.mem_cons_self x a),
      ih (fun y hy => h y (List.mem_cons_of_mem x hy))]

theorem parse_condition_split (name : List Char) (d : Char) (rest : List Char)
    (hn : name ≠ []) (hres : ∀ c ∈ name, reserved_char c = false)
    (hd : reserved_char d = true) :
    parse_condition (name ++ d :: rest)
      = (parse_op_val (if (d :: rest).head? = some '!'
            then rest else d :: rest)).map
          fun ov => (name, decide ((d :: rest).head? = some '!'), some ov) := by
  unfold parse_condition
  rw [findIdxAux_append reserved_char d rest hd name hres]
  split
  next pos hpos =>
    injection hpos with hpos
    subst hpos
    rw [if_neg (by simpa [List.length_eq_zero] using hn)]
    rw [List.take_left, List.drop_left]
    rfl
  next hpos => cases hpos

/-- C4: `parse_condition` implements the condition-atom grammar: a string free
of reserved characters parses to `(wholeString, false, none)` (an existence
check); a string formed of a non-empty reserved-free name, an optional `!`
(setting negated), an operator token (`=` Equivalence, `<` LowerThan,
`<=` LowerThanOrEqual, `>` GreaterThan, `>=` GreaterThanOrEqual, `~` Contains)
and arbitrary trailing text splits at its first reserved character and parses
to the name, the negation flag, the operator and the trailing text returned
unparsed (for `<` and `>` the trailing text must not start with `=`, which
would extend the token). -/
theorem parse_condition_grammar (name value : List Char) (neg : Bool)
    (op : MatchOp) (hn : name ≠ [])
    (hres : ∀ c ∈ name, reserved_char c = false)
    (hval : (op = MatchOp.LowerThan ∨ op = MatchOp.GreaterThan) →
      value.head? ≠ some '=') :
    parse_condition name = Except.ok (name, false, none) ∧
    parse_condition (name ++ (if neg then ['!'] else []) ++ opToken op ++ value)
      = Except.ok (name, neg, some (op, value)) := by
  constructor
  · unfold parse_condition
    rw [findIdxAux_none reserved_char name hres]
  · cases neg with
    | true =>
      have heq : name ++ (if (true : Bool) then ['!'] else [])
            ++ opToken op ++ value
          = name ++ '!' :: (opToken op ++ value) := by
        simp
      rw [heq, parse_condition_split name '!' (opToken op ++ value) hn hres
        (by decide)]
      cases op with
      | Equivalence => rfl
      | LowerThanOrEqual => rfl
      | GreaterThanOrEqual => rfl
      | Contains => rfl
      | LowerThan =>
        have hv : ¬ value.head? = some '=' := hval (Or.inl rfl)
        show (parse_op_val ('<' :: value)).map
            (fun ov => (name, true, some ov)) = _
        simp only [parse_op_val]
        rw [if_neg (show ¬('<' = '=') by decide)]
        simp only [if_true]
        rw [if_neg hv]
        rfl
      | GreaterThan =>
        have hv : ¬ value.head? = some '=' := hval (Or.inr rfl)
        show (parse_op_val ('>' :: value)).map
            (fun ov => (name, true, some ov)) = _
        simp only [parse_op_val]
        rw [if_neg (show ¬('>' = '=') by decide)]
        simp only [if_true]
        rw [if_neg (show ¬('>' = '<') by decide), if_neg hv]
        rfl
    | false =>
      cases op with
      | Equivalence =>
        have heq : name ++ (if (false : Bool) then ['!'] else [])
              ++ opToken MatchOp.Equivalence ++ value
            = name ++ '=' :: value := by simp [opToken]
        rw [heq, parse_condition_split name '=' value hn hres (by decide)]
        rfl
      | LowerThanOrEqual =>
        have heq : name ++ (if (false : Bool) then ['!'] else [])
              ++ opToken MatchOp.LowerThanOrEqual ++ value
            = name ++ '<' :: '=' :: value := by simp [opToken]
        rw [heq, parse_condition_split name '<' ('=' :: value) hn hres
          (by decide)]
        rfl
      | GreaterThanOrEqual =>
        have heq : name ++ (if (false : Bool) then ['!'] else [])
              ++ opToken MatchOp.GreaterThanOrEqual ++ value
            = name ++ '>' :: '=' :: value := by simp [opToken]
        rw [heq, parse_condition_split name '>' ('=' :: value) hn hres
          (by decide)]
        rfl
      | Contains =>
        have heq : name ++ (if (false : Bool) then ['!'] else [])
              ++ opToken MatchOp.Contains ++ value
            = name ++ '~' :: value := by simp [opToken]
        rw [heq, parse_condition_split name '~' value hn hres (by decide)]
        rfl
      | LowerThan =>
        have hv : ¬ value.head? = some '=' := hval (Or.inl rfl)
        have heq : name ++ (if (false : Bool) then ['!'] else [])
              ++ opToken MatchOp.LowerThan ++ value
            = name ++ '<' :: value := by simp [opToken]
        rw [heq, parse_condition_split name '<' value hn hres (by decide)]
        show (parse_op_val ('<' :: value)).map
            (fun ov => (name, false, some ov)) = _
        simp only [parse_op_val]
        rw [if_neg (show ¬('<' = '=') by decide)]
        simp only [if_true]
        rw [if_neg hv]
        rfl
      | GreaterThan =>
        have hv : ¬ value.head? = some '=' := hval (Or.inr rfl)
        have heq : name ++ (if (false : Bool) then ['!'] else [])
              ++ opToken MatchOp.GreaterThan ++ value
            = name ++ '>' :: value := by simp [opToken]
        rw [heq, parse_condition_split name '>' value hn hres (by decide)]
        show (parse_op_val ('>' :: value)).map
            (fun ov => (name, false, some ov)) = _
        simp only [parse_op_val]
        rw [if_neg (show ¬('>' = '=') by decide)]
        simp only [if_true]
        rw [if_neg (show ¬('>' = '<') by decide), if_neg hv]
        rfl

/-- Witness for C4 at the name-free case for `"foo"` and the composed atom
`"foo!<=bar"`. -/
theorem parse_condition_grammar_witness :
    ("foo".data ≠ []) ∧
    (∀ c ∈ "foo".data, reserved_char c = false) ∧
    ((MatchOp.LowerThanOrEqual = MatchOp.LowerThan
        ∨ MatchOp.LowerThanOrEqual = MatchOp.GreaterThan) →
      "bar".data.head? ≠ some '=') ∧
    (parse_condition "foo".data = Except.ok ("foo".data, false, none) ∧
      parse_condition "foo!<=bar".data
        = Except.ok ("foo".data, true,
            some (MatchOp.LowerThanOrEqual, "bar".data))) :=
  ⟨by decide, by decide, by decide, by
    have h := parse_condition_grammar "foo".data "bar".data true
      MatchOp.LowerThanOrEqual (by decide) (by decide) (by decide)
    refine ⟨h.1, ?_⟩
    have heq : "foo!<=bar".data
        = "foo".data ++ (if (true : Bool) then ['!'] else [])
          ++ opToken MatchOp.LowerThanOrEqual ++ "bar".data := by decide
    rw [heq]
    exact h.2⟩

/-- C7: evaluation of `parse_condition` at malformed atoms: `"=foo"` starts
with a reserved character other than a `!`-negated existence check,
`"foo!bar"` has no valid operator token after the negation, and `"!fo=o"`
is a `!`-prefixed string whose remainder contains a further reserved
character; all three fail with the `ConditionParseError` kind, the variant
that src/condition.rs constructs but src/error.rs's `ErrorKind` enum does not
declare. -/
theorem parse_condition_error_cases :
    parse_condition "=foo".data = Except.error ErrorKind.ConditionParseError ∧
    parse_condition "foo!bar".data
      = Except.error ErrorKind.ConditionParseError ∧
    parse_condition "!fo=o".data
      = Except.error ErrorKind.ConditionParseError :=
  ⟨rfl, rfl, rfl⟩

theorem stateLookup_insert {C : Type} (a b : IssueState C) (v : Bool)
    (h : a.name = b.name) :
    ∀ m : List (IssueState C × Bool), stateLookup a (mapInsert b v m) = some v := by
  have hab : IssueState.cmp a b = Ordering.eq :=
    (cmpBy_eq_eq IssueState.name a b).mpr h
  intro m
  induction m with
  | nil => simp [mapInsert, stateLookup, hab]
  | cons kw m ih =>
    rcases kw with ⟨k, w⟩
    cases hc : IssueState.cmp b k with
    | lt =>
      simp only [mapInsert, hc]
      simp [stateLookup, hab]
    | eq =>
      simp only [mapInsert, hc]
      simp [stateLookup, hab]
    | gt =>
      simp only [mapInsert, hc]
      have hak : IssueState.cmp a k = Ordering.gt :=
        (cmpBy_eq_gt IssueState.name a k).mpr
          (h ▸ (cmpBy_eq_gt IssueState.name b k).mp hc)
      simp [stateLookup, hak, ih]

theorem nextRight_map_key {K V α : Type} [LinearOrder α] (f : K → α) (key : K) :
    ∀ (right : List (K × V)) (buf : Option (K × V)),
      (nextRight (cmpBy f) key buf right).1
        = (nextRight (cmpBy id) (f key) (buf.map fun p => (f p.1, p.2))
            (right.map fun p => (f p.1, p.2))).1 ∧
      (nextRight (cmpBy f) key buf right).2.1.map (fun p => (f p.1, p.2))
        = (nextRight (cmpBy id) (f key) (buf.map fun p => (f p.1, p.2))
            (right.map fun p => (f p.1, p.2))).2.1 ∧
      (nextRight (cmpBy f) key buf right).2.2.map (fun p => (f p.1, p.2))
        = (nextRight (cmpBy id) (f key) (buf.map fun p => (f p.1, p.2))
            (right.map fun p => (f p.1, p.2))).2.2 := by
  intro right
  induction right with
  | nil =>
    intro buf
    match buf with
    | none => simp [nextRight]
    | some b =>
      have hcc : cmpBy id (f b.1) (f key) = cmpBy f b.1 key := rfl
      cases hc : cmpBy f b.1 key <;> simp [nextRight, hc, hcc]
  | cons r rs ih =>
    intro buf
    match buf with
    | none =>
      have := ih (some r)
      simpa [nextRight] using this
    | some b =>
      have hcc : cmpBy id (f b.1) (f key) = cmpBy f b.1 key := rfl
      cases hc : cmpBy f b.1 key with
      | lt =>
        have := ih (some r)
        simpa [nextRight, hc, hcc] using this
      | eq => simp [nextRight, hc, hcc]
      | gt => simp [nextRight, hc, hcc]

theorem leftJoinAux_map_key {K U V α : Type} [LinearOrder α] (f : K → α) :
    ∀ (left : List (K × U)) (buf : Option (K × V)) (right : List (K × V)),
      leftJoinAux (cmpBy f) left buf right
        = leftJoinAux (cmpBy id) (left.map fun p => (f p.1, p.2))
            (buf.map fun p => (f p.1, p.2))
            (right.map fun p => (f p.1, p.2)) := by
  intro left
  induction left with
  | nil => intro buf right; rfl
  | cons l ls ih =>
    intro buf right
    have hnr := nextRight_map_key f l.1 right buf
    show (l.2, (nextRight (cmpBy f) l.1 buf right).1)
        :: leftJoinAux (cmpBy f) ls (nextRight (cmpBy f) l.1 buf right).2.1
          (nextRight (cmpBy f) l.1 buf right).2.2
      = (l.2, (nextRight (cmpBy id) (f l.1) (buf.map fun p => (f p.1, p.2))
            (right.map fun p => (f p.1, p.2))).1)
        :: leftJoinAux (cmpBy id) (ls.map fun p => (f p.1, p.2))
          (nextRight (cmpBy id) (f l.1) (buf.map fun p => (f p.1, p.2))
            (right.map fun p => (f p.1, p.2))).2.1
          (nextRight (cmpBy id) (f l.1) (buf.map fun p => (f p.1, p.2))
            (right.map fun p => (f p.1, p.2))).2.2
    rw [hnr.1, ih, hnr.2.1, hnr.2.2]

/-- C9: equality and ordering of `IssueState` are determined solely by the
name — two states with equal names compare equal (`beq`, `cmp`) and compare
identically against any third state whatever their conditions or relations;
consequently a map keyed on states finds an entry inserted under any
same-named state, and the merge-join keyed on states factors through the
names of its keys. -/
theorem issueState_keyed_by_name {C : Type} (a b : IssueState C)
    (m : List (IssueState C × Bool)) (v : Bool) (h : a.name = b.name) :
    IssueState.beq a b = true ∧
    IssueState.cmp a b = Ordering.eq ∧
    (∀ x : IssueState C, IssueState.cmp a x = IssueState.cmp b x) ∧
    stateLookup a (mapInsert b v m) = some v ∧
    (∀ (U V : Type) (left : List (IssueState C × U))
        (right : List (IssueState C × V)),
      joinLeft IssueState.cmp left right
        = joinLeft (cmpBy id)
            (left.map fun p => (p.1.name, p.2))
            (right.map fun p => (p.1.name, p.2))) := by
  refine ⟨(beq_iff a b).mpr h, (cmpBy_eq_eq IssueState.name a b).mpr h,
    ?_, stateLookup_insert a b v h m, ?_⟩
  · intro x
    show cmpBy IssueState.name a x = cmpBy IssueState.name b x
    unfold cmpBy
    rw [h]
  · intro U V left right
    exact leftJoinAux_map_key IssueState.name left none right

def c9a : IssueState (List Char) := IssueState.mk "s".data ["p".data] []

def c9b : IssueState (List Char) :=
  IssueState.mk "s".data ["q".data]
    [(IssueState.mk "t".data [] [], StateRelation.Extends)]

/-- Witness for C9 at two states sharing the name `s` but differing in both
conditions and relations. -/
theorem issueState_keyed_by_name_witness :
    c9a.name = c9b.name ∧
    (IssueState.beq c9a c9b = true ∧
      IssueState.cmp c9a c9b = Ordering.eq ∧
      (∀ x : IssueState (List Char), IssueState.cmp c9a x = IssueState.cmp c9b x) ∧
      stateLookup c9a (mapInsert c9b true []) = some true ∧
      (∀ (U V : Type) (left : List (IssueState (List Char) × U))
          (right : List (IssueState (List Char) × V)),
        joinLeft IssueState.cmp left right
          = joinLeft (cmpBy id)
              (left.map fun p => (p.1.name, p.2))
              (right.map fun p => (p.1.name, p.2)))) :=
  ⟨rfl, issueState_keyed_by_name c9a c9b [] true rfl⟩
